import Mathlib

/-!
Verification development for the `rust_late_format` library.

The library exposes a single operation, `late_substitution`, a pure
scan-and-replace over a template string.  The Rust source performs
`regex_replace_all` with the pattern

    \x7b\s*( ([a-zA-Z_0-9\-\.\$]+) | ("([^\u22])*") )\s*\x7d

replacing each non-overlapping, leftmost match: when the captured body
(group 1) starts with a double quote the replacement is the body with the
first and last byte stripped, otherwise the body is looked up in the
arguments map, with the literal string "None" as fallback.

We embed this over `List Char`.  The regex operators involved are
deterministic here (the whitespace class, the name-character class, the
double quote and the closing brace are pairwise disjoint where it
matters), so the leftmost-first match of the pattern at a given `\x7b` is
computed by the greedy `takeWhile`/`dropWhile` scan below, trying the
name alternative first and the quoted alternative second, exactly as the
alternation is ordered in the pattern.
-/

/-- Rust regex `\s` (Unicode White_Space), as matched by `regex_replace_all`. -/
def isWsp (c : Char) : Bool :=
  let n := c.toNat
  (9 ≤ n && n ≤ 13) || n == 32 || n == 133 || n == 160 || n == 5760 ||
  (8192 ≤ n && n ≤ 8202) || n == 8232 || n == 8233 || n == 8239 ||
  n == 8287 || n == 12288

/-- The character class `[a-zA-Z_0-9\-\.\$]` of the parameter alternative,
by codepoint: `a`-`z` is 97-122, `A`-`Z` is 65-90, `0`-`9` is 48-57, `_` is
95, `-` is 45, `.` is 46, `$` is 36. -/
def isNameChar (c : Char) : Bool :=
  let n := c.toNat
  (97 ≤ n && n ≤ 122) || (65 ≤ n && n ≤ 90) || (48 ≤ n && n ≤ 57) ||
  n == 95 || n == 45 || n == 46 || n == 36

/-- Match the escaped alternative `("([^\u22])*")\s*\x7d` at the head of
`cs` (the text following `\x7b\s*`).  On success, returns the capture of
group 1 (quotes included) and the input remaining after the closing
brace. -/
def tryEscaped (cs : List Char) : Option (List Char × List Char) :=
  match cs with
  | c0 :: rest =>
    if c0 = '"' then
      match rest.dropWhile (fun c => !(c == '"')) with
      | c1 :: after =>
        if c1 = '"' then
          match after.dropWhile isWsp with
          | c2 :: rest2 =>
            if c2 = '}' then
              some ('"' :: rest.takeWhile (fun c => !(c == '"')) ++ ['"'], rest2)
            else none
          | [] => none
        else none
      | [] => none
    else none
  | [] => none

/-- Match `\s*( param | escaped )\s*\x7d` on the text `cs` that follows an
opening brace.  The parameter alternative is tried first, as in the
pattern; if its trailing `\s*\x7d` fails the escaped alternative is tried
from the same position (it then necessarily fails too, since the position
starts with a name character, but we keep the alternation faithful).
Returns the capture of group 1 and the remaining input. -/
def tryTokenAfterBrace (cs : List Char) : Option (List Char × List Char) :=
  if (cs.dropWhile isWsp).takeWhile isNameChar = [] then
    tryEscaped (cs.dropWhile isWsp)
  else
    match ((cs.dropWhile isWsp).dropWhile isNameChar).dropWhile isWsp with
    | c2 :: rest2 =>
      if c2 = '}' then some ((cs.dropWhile isWsp).takeWhile isNameChar, rest2)
      else tryEscaped (cs.dropWhile isWsp)
    | [] => tryEscaped (cs.dropWhile isWsp)

theorem tryEscaped_suffix (cs g rest : List Char)
    (h : tryEscaped cs = some (g, rest)) : rest <:+ cs := by
  unfold tryEscaped at h
  split at h
  case h_2 => exact absurd h (by simp)
  case h_1 c0 rest0 =>
    split at h
    case isFalse => exact absurd h (by simp)
    case isTrue hc0 =>
      split at h
      case h_2 => exact absurd h (by simp)
      case h_1 c1 after heq =>
        split at h
        case isFalse => exact absurd h (by simp)
        case isTrue hc1 =>
          split at h
          case h_2 => exact absurd h (by simp)
          case h_1 c2 rest2 heq2 =>
            split at h
            case isFalse => exact absurd h (by simp)
            case isTrue hc2 =>
              simp only [Option.some.injEq, Prod.mk.injEq] at h
              obtain ⟨-, h2⟩ := h
              subst h2
              have s1 : rest2 <:+ after.dropWhile isWsp :=
                ⟨[c2], heq2.symm⟩
              have s2 : after.dropWhile isWsp <:+ after := List.dropWhile_suffix _
              have s3 : after <:+ rest0.dropWhile (fun c => !(c == '"')) :=
                ⟨[c1], heq.symm⟩
              have s4 : rest0.dropWhile (fun c => !(c == '"')) <:+ rest0 :=
                List.dropWhile_suffix _
              have s5 : rest0 <:+ c0 :: rest0 := List.suffix_cons _ _
              exact (((s1.trans s2).trans s3).trans s4).trans s5

theorem tryTokenAfterBrace_suffix (cs g rest : List Char)
    (h : tryTokenAfterBrace cs = some (g, rest)) : rest <:+ cs := by
  unfold tryTokenAfterBrace at h
  have hdrop : cs.dropWhile isWsp <:+ cs := List.dropWhile_suffix _
  split at h
  · exact (tryEscaped_suffix _ _ _ h).trans hdrop
  · split at h
    case h_1 c2 rest2 heq2 =>
      split at h
      case isFalse => exact (tryEscaped_suffix _ _ _ h).trans hdrop
      case isTrue hc2 =>
        simp only [Option.some.injEq, Prod.mk.injEq] at h
        obtain ⟨-, h2⟩ := h
        subst h2
        have s1 : rest2 <:+ ((cs.dropWhile isWsp).dropWhile isNameChar).dropWhile isWsp :=
          ⟨[c2], heq2.symm⟩
        have s2 : ((cs.dropWhile isWsp).dropWhile isNameChar).dropWhile isWsp <:+
            (cs.dropWhile isWsp).dropWhile isNameChar := List.dropWhile_suffix _
        have s3 : (cs.dropWhile isWsp).dropWhile isNameChar <:+ cs.dropWhile isWsp :=
          List.dropWhile_suffix _
        exact ((s1.trans s2).trans s3).trans hdrop
    case h_2 =>
      exact (tryEscaped_suffix _ _ _ h).trans hdrop

/-- The replacement closure of the source: given the capture `g` of group
1, if it starts with a double quote return `g` with its first and last
character removed (the source slices bytes `1 .. len - 1`; both endpoints
are one-byte quote characters, see `slice_in_bounds`), otherwise look the
name up in the arguments, falling back to the string "None". -/
def applyRepl (arguments : List (String × String)) (g : List Char) : List Char :=
  if g.head? = some '"' then (g.drop 1).dropLast
  else ((List.lookup (String.mk g) arguments).getD "None").data

/-- The scan of `regex_replace_all`: walk left to right; at each position
where the pattern matches, emit the replacement and resume after the
match; every other character is copied verbatim. -/
def lateSubstCore (arguments : List (String × String)) : List Char → List Char
  | [] => []
  | c :: cs =>
    if c = '{' then
      match h2 : tryTokenAfterBrace cs with
      | some (g, rest) => applyRepl arguments g ++ lateSubstCore arguments rest
      | none => c :: lateSubstCore arguments cs
    else c :: lateSubstCore arguments cs
termination_by l => l.length
decreasing_by
  · have := (tryTokenAfterBrace_suffix _ _ _ h2).length_le
    simp only [List.length_cons]
    omega
  · simp
  · simp

/-- `late_substitution` from the source: the whole-string operation. -/
def late_substitution (s : String) (arguments : List (String × String)) : String :=
  String.mk (lateSubstCore arguments s.data)

theorem nameChar_not_wsp (c : Char) (h : isNameChar c = true) : isWsp c = false := by
  cases hw : isWsp c
  · rfl
  · exfalso
    simp only [isNameChar, Bool.or_eq_true, Bool.and_eq_true, decide_eq_true_eq,
      beq_iff_eq] at h
    simp only [isWsp, Bool.or_eq_true, Bool.and_eq_true, decide_eq_true_eq,
      beq_iff_eq] at hw
    omega

theorem wsp_not_nameChar (c : Char) (h : isWsp c = true) : isNameChar c = false := by
  cases hn : isNameChar c
  · rfl
  · exact absurd h (by simp [nameChar_not_wsp c hn])

theorem scan_split {p : Char → Bool} (k l : List Char)
    (hk : ∀ c ∈ k, p c = true)
    (hl : ∀ b t, l = b :: t → p b = false) :
    (k ++ l).takeWhile p = k ∧ (k ++ l).dropWhile p = l := by
  induction k with
  | nil =>
    cases l with
    | nil => simp
    | cons b t =>
      have hb := hl b t rfl
      simp [List.takeWhile_cons, List.dropWhile_cons, hb]
  | cons a k ih =>
    have ha : p a = true := hk a (List.mem_cons_self a k)
    have ih2 := ih (fun c hc => hk c (List.mem_cons_of_mem _ hc))
    simp [List.takeWhile_cons, List.dropWhile_cons, ha, ih2.1, ih2.2]

theorem tryToken_name_match (w1 k w2 rest : List Char)
    (hw1 : ∀ c ∈ w1, isWsp c = true) (hk : k ≠ [])
    (hkc : ∀ c ∈ k, isNameChar c = true) (hw2 : ∀ c ∈ w2, isWsp c = true) :
    tryTokenAfterBrace (w1 ++ (k ++ (w2 ++ '}' :: rest))) = some (k, rest) := by
  obtain ⟨a, k', rfl⟩ := List.exists_cons_of_ne_nil hk
  have ha : isNameChar a = true := hkc a (List.mem_cons_self a k')
  have e1 : (w1 ++ ((a :: k') ++ (w2 ++ '}' :: rest))).dropWhile isWsp
      = (a :: k') ++ (w2 ++ '}' :: rest) :=
    (scan_split w1 ((a :: k') ++ (w2 ++ '}' :: rest)) hw1
      (by
        intro b t hbt
        simp only [List.cons_append] at hbt
        cases hbt
        exact nameChar_not_wsp a ha)).2
  have e2 := scan_split (a :: k') (w2 ++ '}' :: rest) hkc
    (by
      intro b t hbt
      cases w2 with
      | nil =>
        simp only [List.nil_append] at hbt
        cases hbt
        decide
      | cons w ws =>
        simp only [List.cons_append] at hbt
        obtain ⟨rfl, -⟩ := List.cons.inj hbt
        exact wsp_not_nameChar _ (hw2 _ (List.mem_cons_self _ _)))
  have e3 : (w2 ++ '}' :: rest).dropWhile isWsp = '}' :: rest :=
    (scan_split w2 ('}' :: rest) hw2
      (by
        intro b t hbt
        cases hbt
        decide)).2
  unfold tryTokenAfterBrace
  rw [e1, e2.1, e2.2, e3]
  simp

theorem tryToken_escaped_match (w1 s w2 rest : List Char)
    (hw1 : ∀ c ∈ w1, isWsp c = true)
    (hs : ∀ c ∈ s, (c == '"') = false)
    (hw2 : ∀ c ∈ w2, isWsp c = true) :
    tryTokenAfterBrace (w1 ++ ('"' :: (s ++ ('"' :: (w2 ++ '}' :: rest)))))
      = some (('"' :: s) ++ ['"'], rest) := by
  have e1 : (w1 ++ ('"' :: (s ++ ('"' :: (w2 ++ '}' :: rest))))).dropWhile isWsp
      = '"' :: (s ++ ('"' :: (w2 ++ '}' :: rest))) :=
    (scan_split w1 ('"' :: (s ++ ('"' :: (w2 ++ '}' :: rest)))) hw1
      (by
        intro b t hbt
        cases hbt
        decide)).2
  have e2 := scan_split s ('"' :: (w2 ++ '}' :: rest))
    (p := fun c => !(c == '"'))
    (by intro c hc; simp [hs c hc])
    (by
      intro b t hbt
      cases hbt
      decide)
  have e3 : (w2 ++ '}' :: rest).dropWhile isWsp = '}' :: rest :=
    (scan_split w2 ('}' :: rest) hw2
      (by
        intro b t hbt
        cases hbt
        decide)).2
  have hq : isNameChar '"' = false := by decide
  unfold tryTokenAfterBrace tryEscaped
  rw [e1]
  simp [List.takeWhile_cons, hq, e2.1, e2.2, e3]

theorem lateSubstCore_nil (m : List (String × String)) : lateSubstCore m [] = [] :=
  lateSubstCore.eq_1 m

theorem lateSubstCore_token (m : List (String × String)) (cs g rest : List Char)
    (h : tryTokenAfterBrace cs = some (g, rest)) :
    lateSubstCore m ('{' :: cs) = applyRepl m g ++ lateSubstCore m rest := by
  rw [lateSubstCore.eq_2, if_pos rfl]
  split
  case h_1 g' rest' heq =>
    rw [h] at heq
    simp only [Option.some.injEq, Prod.mk.injEq] at heq
    obtain ⟨rfl, rfl⟩ := heq
    rfl
  case h_2 heq =>
    rw [h] at heq
    exact absurd heq (by simp)

theorem lateSubstCore_lit (m : List (String × String)) (c : Char) (cs : List Char)
    (h : c = '{' → tryTokenAfterBrace cs = none) :
    lateSubstCore m (c :: cs) = c :: lateSubstCore m cs := by
  rw [lateSubstCore.eq_2]
  by_cases hc : c = '{'
  · rw [if_pos hc]
    split
    · rename_i g' rest' heq
      rw [h hc] at heq
      exact absurd heq (by simp)
    · rfl
  · rw [if_neg hc]

theorem core_name_step (m : List (String × String)) (k : String)
    (w1 w2 rest : List Char)
    (hw1 : ∀ c ∈ w1, isWsp c = true) (hw2 : ∀ c ∈ w2, isWsp c = true)
    (hk : k.data ≠ []) (hkc : ∀ c ∈ k.data, isNameChar c = true) :
    lateSubstCore m ('{' :: (w1 ++ (k.data ++ (w2 ++ '}' :: rest))))
      = ((List.lookup k m).getD "None").data ++ lateSubstCore m rest := by
  rw [lateSubstCore_token m _ _ _ (tryToken_name_match w1 k.data w2 rest hw1 hk hkc hw2)]
  obtain ⟨a, k', hk'⟩ := List.exists_cons_of_ne_nil hk
  have ha : isNameChar a = true := hkc a (hk' ▸ List.mem_cons_self a k')
  have hne : ¬ k.data.head? = some '"' := by
    rw [hk']
    simp only [List.head?_cons, Option.some.injEq]
    intro hqa
    rw [hqa] at ha
    exact absurd ha (by decide)
  unfold applyRepl
  rw [if_neg hne]

theorem core_escaped_step (m : List (String × String)) (s : List Char)
    (w1 w2 rest : List Char)
    (hw1 : ∀ c ∈ w1, isWsp c = true) (hw2 : ∀ c ∈ w2, isWsp c = true)
    (hs : ∀ c ∈ s, (c == '"') = false) :
    lateSubstCore m ('{' :: (w1 ++ ('"' :: (s ++ ('"' :: (w2 ++ '}' :: rest))))))
      = s ++ lateSubstCore m rest := by
  rw [lateSubstCore_token m _ _ _ (tryToken_escaped_match w1 s w2 rest hw1 hs hw2)]
  unfold applyRepl
  rw [if_pos (by simp)]
  simp [List.dropLast_concat]

theorem tryEscaped_shape (cs g rest : List Char)
    (h : tryEscaped cs = some (g, rest)) :
    ∃ b, g = ('"' :: b) ++ ['"'] := by
  unfold tryEscaped at h
  split at h
  case h_2 => exact absurd h (by simp)
  case h_1 c0 rest0 =>
    split at h
    case isFalse => exact absurd h (by simp)
    case isTrue hc0 =>
      split at h
      case h_2 => exact absurd h (by simp)
      case h_1 c1 after heq =>
        split at h
        case isFalse => exact absurd h (by simp)
        case isTrue hc1 =>
          split at h
          case h_2 => exact absurd h (by simp)
          case h_1 c2 rest2 heq2 =>
            split at h
            case isFalse => exact absurd h (by simp)
            case isTrue hc2 =>
              simp only [Option.some.injEq, Prod.mk.injEq] at h
              exact ⟨_, h.1.symm⟩

/-- C1: substituting the single-token template `\x7bk\x7d`, for a name `k`
made of one or more name-class characters, yields the mapping's value at
key `k` when present (`List.lookup k m = some v` gives `v`) and the
four-character string "None" when absent (`lookup` gives `none`), the two
cases being exactly `(List.lookup k m).getD "None"`. -/
theorem C1_named_reference (m : List (String × String)) (k : String)
    (hk : k.data ≠ []) (hkc : ∀ c ∈ k.data, isNameChar c = true) :
    late_substitution ("\x7b" ++ k ++ "\x7d") m = (List.lookup k m).getD "None" := by
  unfold late_substitution
  have e : ("\x7b" ++ k ++ "\x7d").data
      = '{' :: ([] ++ (k.data ++ ([] ++ '}' :: []))) := by
    rw [String.data_append, String.data_append]
    rfl
  rw [e, core_name_step m k [] [] [] (by simp) (by simp) hk hkc, lateSubstCore_nil,
    List.append_nil]

/-- Witness for C1: `\x7bid\x7d` with `id` mapped to `x` gives `x`; with an
empty mapping it gives "None". -/
theorem C1_named_reference_witness :
    late_substitution ("\x7b" ++ "id" ++ "\x7d") [("id", "x")] = "x" ∧
    late_substitution ("\x7b" ++ "id" ++ "\x7d") [] = "None" := by
  constructor
  · rw [C1_named_reference [("id", "x")] "id" (by decide) (by decide)]
    decide
  · rw [C1_named_reference [] "id" (by decide) (by decide)]
    decide

/-- C2: substituting the single-token template `\x7b"s"\x7d`, for any body
`s` free of double quotes, yields exactly `s`, whatever the mapping. -/
theorem C2_escaped_literal (m : List (String × String)) (s : String)
    (hs : ∀ c ∈ s.data, ¬ c = '"') :
    late_substitution ("\x7b\"" ++ s ++ "\"\x7d") m = s := by
  unfold late_substitution
  have e : ("\x7b\"" ++ s ++ "\"\x7d").data
      = '{' :: ([] ++ ('"' :: (s.data ++ ('"' :: ([] ++ '}' :: []))))) := by
    rw [String.data_append, String.data_append]
    rfl
  rw [e, core_escaped_step m s.data [] [] [] (by simp) (by simp)
      (by intro c hc; simpa using hs c hc),
    lateSubstCore_nil, List.append_nil]

/-- Witness for C2: `\x7b"id"\x7d` gives `id` even though the mapping binds
`id` to something else. -/
theorem C2_escaped_literal_witness :
    late_substitution ("\x7b\"" ++ "id" ++ "\"\x7d") [("id", "x")] = "id" :=
  C2_escaped_literal [("id", "x")] "id" (by decide)

/-- C3: the operation is total by construction (`late_substitution` is a
Lean function on all strings and mappings); the one operation whose
safety is not syntactic is the byte slice `s[1..len-1]` in the
replacement closure, taken when the captured group starts with a double
quote.  Every group produced by the matcher is nonempty, and when it
starts with a double quote it has length at least 2 and also ends with a
double quote, so the slice stays inside the string and both endpoints cut
at one-byte character boundaries. -/
theorem C3_group_slice_safe (cs g rest : List Char)
    (h : tryTokenAfterBrace cs = some (g, rest)) :
    g ≠ [] ∧ (g.head? = some '"' → 2 ≤ g.length ∧ g.getLast? = some '"') := by
  have esc : ∀ b : List Char, (('"' :: b) ++ ['"']) ≠ [] ∧
      ((('"' :: b) ++ ['"']).head? = some '"' →
        2 ≤ (('"' :: b) ++ ['"']).length ∧
        (('"' :: b) ++ ['"']).getLast? = some '"') := by
    intro b
    refine ⟨by simp, fun _ => ⟨?_, by rw [List.getLast?_concat]⟩⟩
    simp only [List.length_append, List.length_cons, List.length_nil]
    omega
  unfold tryTokenAfterBrace at h
  split at h
  case isTrue hnm =>
    obtain ⟨b, rfl⟩ := tryEscaped_shape _ _ _ h
    exact esc b
  case isFalse hnm =>
    split at h
    case h_1 c2 rest2 heq2 =>
      split at h
      case isTrue hc2 =>
        simp only [Option.some.injEq, Prod.mk.injEq] at h
        obtain ⟨rfl, -⟩ := h
        refine ⟨hnm, fun hq => absurd ?_ (by decide : ¬ isNameChar '"' = true)⟩
        exact List.mem_takeWhile_imp (List.mem_of_mem_head? (Option.mem_def.mpr hq))
      case isFalse hc2 =>
        obtain ⟨b, rfl⟩ := tryEscaped_shape _ _ _ h
        exact esc b
    case h_2 heq2 =>
      obtain ⟨b, rfl⟩ := tryEscaped_shape _ _ _ h
      exact esc b

/-- Witness for C3: the group captured for the escaped token `\x7b"x"\x7d`
is `"x"` with the quotes, nonempty, of length 3 and quote-terminated. -/
theorem C3_group_slice_safe_witness :
    (['"', 'x', '"'] : List Char) ≠ [] ∧
    ((['"', 'x', '"'] : List Char).head? = some '"' →
      2 ≤ (['"', 'x', '"'] : List Char).length ∧
      (['"', 'x', '"'] : List Char).getLast? = some '"') :=
  C3_group_slice_safe ['"', 'x', '"', '}'] ['"', 'x', '"'] [] (by decide)

/-- C10: the replacement value for a named reference is inserted verbatim:
if the mapping sends `k` to `v` then substituting `\x7bk\x7d` yields `v`
itself, with no re-scan of `v` — in particular `v` may itself spell a
token, as the witness shows. -/
theorem C10_no_rescan (m : List (String × String)) (k v : String)
    (hk : k.data ≠ []) (hkc : ∀ c ∈ k.data, isNameChar c = true)
    (hv : List.lookup k m = some v) :
    late_substitution ("\x7b" ++ k ++ "\x7d") m = v := by
  unfold late_substitution
  have e : ("\x7b" ++ k ++ "\x7d").data
      = '{' :: ([] ++ (k.data ++ ([] ++ '}' :: []))) := by
    rw [String.data_append, String.data_append]
    rfl
  rw [e, core_name_step m k [] [] [] (by simp) (by simp) hk hkc, lateSubstCore_nil,
    List.append_nil, hv]
  rfl

/-- Witness for C10: `k` maps to the text `\x7bx\x7d`, and `x` maps to `y`;
substituting `\x7bk\x7d` yields the literal text `\x7bx\x7d`, not `y`. -/
theorem C10_no_rescan_witness :
    late_substitution ("\x7b" ++ "k" ++ "\x7d")
      [("k", "\x7bx\x7d"), ("x", "y")] = "\x7bx\x7d" :=
  C10_no_rescan [("k", "\x7bx\x7d"), ("x", "y")] "k" "\x7bx\x7d"
    (by decide) (by decide) (by decide)

theorem string_mk_append (a b : String) : String.mk (a.data ++ b.data) = a ++ b := by
  rw [← String.data_append]

/-- C5: whitespace between the braces and the token body is discarded and
does not affect matching: substituting `\x7b k \x7d` equals substituting
`\x7bk\x7d` for every name `k` and mapping, and likewise
`\x7b "s" \x7d` equals `\x7b"s"\x7d` for an escaped-literal body. -/
theorem C5_whitespace_insensitive (m : List (String × String)) (k s : String)
    (hk : k.data ≠ []) (hkc : ∀ c ∈ k.data, isNameChar c = true)
    (hs : ∀ c ∈ s.data, ¬ c = '"') :
    late_substitution ("\x7b " ++ k ++ " \x7d") m
      = late_substitution ("\x7b" ++ k ++ "\x7d") m ∧
    late_substitution ("\x7b \"" ++ s ++ "\" \x7d") m
      = late_substitution ("\x7b\"" ++ s ++ "\"\x7d") m := by
  have hsp : ∀ c ∈ [' '], isWsp c = true := by decide
  constructor
  · unfold late_substitution
    have e1 : ("\x7b " ++ k ++ " \x7d").data
        = '{' :: ([' '] ++ (k.data ++ ([' '] ++ '}' :: []))) := by
      rw [String.data_append, String.data_append]
      rfl
    have e2 : ("\x7b" ++ k ++ "\x7d").data
        = '{' :: ([] ++ (k.data ++ ([] ++ '}' :: []))) := by
      rw [String.data_append, String.data_append]
      rfl
    rw [e1, e2, core_name_step m k [' '] [' '] [] hsp hsp hk hkc,
      core_name_step m k [] [] [] (by simp) (by simp) hk hkc]
  · unfold late_substitution
    have e1 : ("\x7b \"" ++ s ++ "\" \x7d").data
        = '{' :: ([' '] ++ ('"' :: (s.data ++ ('"' :: ([' '] ++ '}' :: []))))) := by
      rw [String.data_append, String.data_append]
      rfl
    have e2 : ("\x7b\"" ++ s ++ "\"\x7d").data
        = '{' :: ([] ++ ('"' :: (s.data ++ ('"' :: ([] ++ '}' :: []))))) := by
      rw [String.data_append, String.data_append]
      rfl
    have hs2 : ∀ c ∈ s.data, (c == '"') = false := by
      intro c hc
      simpa using hs c hc
    rw [e1, e2, core_escaped_step m s.data [' '] [' '] [] hsp hsp hs2,
      core_escaped_step m s.data [] [] [] (by simp) (by simp) hs2]

/-- Witness for C5: both equalities at the name `id` and the body `id`. -/
theorem C5_whitespace_insensitive_witness :
    late_substitution ("\x7b " ++ "id" ++ " \x7d") [("id", "x")]
      = late_substitution ("\x7b" ++ "id" ++ "\x7d") [("id", "x")] ∧
    late_substitution ("\x7b \"" ++ "id" ++ "\" \x7d") [("id", "x")]
      = late_substitution ("\x7b\"" ++ "id" ++ "\"\x7d") [("id", "x")] :=
  C5_whitespace_insensitive [("id", "x")] "id" "id" (by decide) (by decide) (by decide)

/-- C8: adjacent tokens are matched left to right, non-overlapping, and
substituted independently: `\x7bk1\x7d\x7bk2\x7d` yields the concatenation
of the two independent substitutions. -/
theorem C8_adjacent_tokens (m : List (String × String)) (k1 k2 : String)
    (hk1 : k1.data ≠ []) (hkc1 : ∀ c ∈ k1.data, isNameChar c = true)
    (hk2 : k2.data ≠ []) (hkc2 : ∀ c ∈ k2.data, isNameChar c = true) :
    late_substitution ("\x7b" ++ k1 ++ "\x7d\x7b" ++ k2 ++ "\x7d") m
      = ((List.lookup k1 m).getD "None") ++ ((List.lookup k2 m).getD "None") := by
  unfold late_substitution
  have e : ("\x7b" ++ k1 ++ "\x7d\x7b" ++ k2 ++ "\x7d").data
      = '{' :: ([] ++ (k1.data ++ ([] ++ '}' ::
          ('{' :: ([] ++ (k2.data ++ ([] ++ '}' :: []))))))) := by
    rw [String.data_append, String.data_append, String.data_append,
      String.data_append]
    simp only [List.append_assoc]
    rfl
  rw [e, core_name_step m k1 [] [] _ (by simp) (by simp) hk1 hkc1,
    core_name_step m k2 [] [] [] (by simp) (by simp) hk2 hkc2,
    lateSubstCore_nil, List.append_nil]
  exact string_mk_append ..

/-- Witness for C8: `\x7ba\x7d\x7bb\x7d` with `a` mapped to `1` and `b`
mapped to `2` yields `12`. -/
theorem C8_adjacent_tokens_witness :
    late_substitution ("\x7b" ++ "a" ++ "\x7d\x7b" ++ "b" ++ "\x7d")
      [("a", "1"), ("b", "2")] = "12" := by
  rw [C8_adjacent_tokens [("a", "1"), ("b", "2")] "a" "b"
    (by decide) (by decide) (by decide) (by decide)]
  decide

/-- Position check used to state "contains no valid token": at a position
starting with an opening brace, the pattern must fail to match. -/
def noTokenAt : List Char → Bool
  | c :: cs => if c = '{' then (tryTokenAfterBrace cs).isNone else true
  | [] => true

/-- A text contains no valid token when the pattern matches at none of its
positions (`tails` enumerates every scan position). -/
def hasNoToken (l : List Char) : Bool := l.tails.all noTokenAt

theorem hasNoToken_cons (c : Char) (cs : List Char) :
    hasNoToken (c :: cs) = (noTokenAt (c :: cs) && hasNoToken cs) := by
  unfold hasNoToken
  simp

theorem core_id_of_noToken (m : List (String × String)) :
    ∀ n l, l.length ≤ n → hasNoToken l = true → lateSubstCore m l = l := by
  intro n
  induction n with
  | zero =>
    intro l hl _
    have hnil : l = [] := List.eq_nil_of_length_eq_zero (Nat.le_zero.mp hl)
    subst hnil
    exact lateSubstCore_nil m
  | succ n ih =>
    intro l hl hnt
    cases l with
    | nil => exact lateSubstCore_nil m
    | cons c cs =>
      rw [hasNoToken_cons, Bool.and_eq_true] at hnt
      have hc : c = '{' → tryTokenAfterBrace cs = none := by
        intro hc
        subst hc
        have h1 := hnt.1
        rw [show noTokenAt ('{' :: cs)
            = if '{' = '{' then (tryTokenAfterBrace cs).isNone else true from rfl,
          if_pos rfl] at h1
        exact Option.isNone_iff_eq_none.mp h1
      have hcs : cs.length ≤ n := by
        simp only [List.length_cons] at hl
        omega
      rw [lateSubstCore_lit m c cs hc, ih cs hcs hnt.2]

/-- C4: a template that contains no valid token anywhere (the pattern
fails at every position) is returned unchanged, whatever the mapping —
this covers brace-free text, the empty-name form, bodies with disallowed
characters, and unterminated quotes. -/
theorem C4_no_token_identity (m : List (String × String)) (t : String)
    (h : hasNoToken t.data = true) : late_substitution t m = t := by
  unfold late_substitution
  rw [core_id_of_noToken m t.data.length t.data le_rfl h]

/-- Witness for C4: the malformed token with a disallowed character, the
empty-name form, and an unterminated quote all pass through unchanged. -/
theorem C4_no_token_identity_witness :
    late_substitution "\x7bfoo!\x7d" [("foo", "x")] = "\x7bfoo!\x7d" ∧
    late_substitution "\x7b\x7d" [("", "x")] = "\x7b\x7d" ∧
    late_substitution "\x7b\"unterminated\x7d" [] = "\x7b\"unterminated\x7d" :=
  ⟨C4_no_token_identity [("foo", "x")] "\x7bfoo!\x7d" (by decide),
   C4_no_token_identity [("", "x")] "\x7b\x7d" (by decide),
   C4_no_token_identity [] "\x7b\"unterminated\x7d" (by decide)⟩

theorem applyRepl_ext (m1 m2 : List (String × String))
    (hm : ∀ k : String, List.lookup k m1 = List.lookup k m2) (g : List Char) :
    applyRepl m1 g = applyRepl m2 g := by
  unfold applyRepl
  split
  · rfl
  · rw [hm]

theorem core_ext (m1 m2 : List (String × String))
    (hm : ∀ k : String, List.lookup k m1 = List.lookup k m2) :
    ∀ n l, l.length ≤ n → lateSubstCore m1 l = lateSubstCore m2 l := by
  intro n
  induction n with
  | zero =>
    intro l hl
    have hnil : l = [] := List.eq_nil_of_length_eq_zero (Nat.le_zero.mp hl)
    subst hnil
    rw [lateSubstCore_nil, lateSubstCore_nil]
  | succ n ih =>
    intro l hl
    cases l with
    | nil => rw [lateSubstCore_nil, lateSubstCore_nil]
    | cons c cs =>
      have hcs : cs.length ≤ n := by
        simp only [List.length_cons] at hl
        omega
      by_cases hc : c = '{'
      · subst hc
        cases htk : tryTokenAfterBrace cs with
        | some p =>
          obtain ⟨g, rest⟩ := p
          have hrest : rest.length ≤ n :=
            le_trans (tryTokenAfterBrace_suffix cs g rest htk).length_le hcs
          rw [lateSubstCore_token m1 cs g rest htk, lateSubstCore_token m2 cs g rest htk,
            applyRepl_ext m1 m2 hm g, ih rest hrest]
        | none =>
          rw [lateSubstCore_lit m1 _ _ (fun _ => htk),
            lateSubstCore_lit m2 _ _ (fun _ => htk), ih cs hcs]
      · rw [lateSubstCore_lit m1 c cs (fun h => absurd h hc),
          lateSubstCore_lit m2 c cs (fun h => absurd h hc), ih cs hcs]

/-- C9: the operation is a pure function of the template and of the
key-to-value lookup function of the mapping: two mappings that agree as
lookup tables — whatever the order of their entries — give equal outputs
on every template, so the result depends on no external state and no
iteration order. -/
theorem C9_deterministic (t : String) (m1 m2 : List (String × String))
    (hm : ∀ k : String, List.lookup k m1 = List.lookup k m2) :
    late_substitution t m1 = late_substitution t m2 := by
  unfold late_substitution
  rw [core_ext m1 m2 hm t.data.length t.data le_rfl]

/-- Witness for C9: two entry orders of the same mapping give the same
output. -/
theorem C9_deterministic_witness :
    late_substitution ("\x7b" ++ "a" ++ "\x7d") [("a", "1"), ("b", "2")]
      = late_substitution ("\x7b" ++ "a" ++ "\x7d") [("b", "2"), ("a", "1")] :=
  C9_deterministic _ _ _ (by
    intro k
    by_cases h1 : k = "a"
    · subst h1
      decide
    · by_cases h2 : k = "b"
      · subst h2
        decide
      · have e1 : (k == "a") = false := beq_eq_false_iff_ne.mpr h1
        have e2 : (k == "b") = false := beq_eq_false_iff_ne.mpr h2
        simp [List.lookup, e1, e2])

/-- The point where the source consults the mapping: `HashMap::get`
borrows the map immutably and returns an optional value; modelled with
explicit state passing, the step returns the looked-up value together
with the mapping it leaves behind — the same one. -/
def lookupArg (arguments : List (String × String)) (k : String) :
    Option String × List (String × String) :=
  (List.lookup k arguments, arguments)

/-- The replacement closure with the mapping threaded as explicit state. -/
def applyReplRun (arguments : List (String × String)) (g : List Char) :
    List Char × List (String × String) :=
  if g.head? = some '"' then ((g.drop 1).dropLast, arguments)
  else
    match lookupArg arguments (String.mk g) with
    | (r, args1) => ((r.getD "None").data, args1)

/-- The scan with the mapping threaded as explicit state through every
step, so that mutation of the mapping, if any occurred, would be
observable in the returned state. -/
def lateSubstCoreRun (arguments : List (String × String)) :
    List Char → List Char × List (String × String)
  | [] => ([], arguments)
  | c :: cs =>
    if c = '{' then
      match h2 : tryTokenAfterBrace cs with
      | some (g, rest) =>
        match applyReplRun arguments g with
        | (v, args1) =>
          match lateSubstCoreRun args1 rest with
          | (out, args2) => (v ++ out, args2)
      | none =>
        match lateSubstCoreRun arguments cs with
        | (out, args2) => (c :: out, args2)
    else
      match lateSubstCoreRun arguments cs with
      | (out, args2) => (c :: out, args2)
termination_by l => l.length
decreasing_by
  · have := (tryTokenAfterBrace_suffix _ _ _ h2).length_le
    simp only [List.length_cons]
    omega
  · simp
  · simp

/-- One whole invocation, returning the output and the final state of the
mapping. -/
def lateSubstRun (s : String) (arguments : List (String × String)) :
    String × List (String × String) :=
  match lateSubstCoreRun arguments s.data with
  | (out, args2) => (String.mk out, args2)

theorem applyReplRun_eq (m : List (String × String)) (g : List Char) :
    applyReplRun m g = (applyRepl m g, m) := by
  unfold applyReplRun applyRepl lookupArg
  split <;> rfl

theorem coreRun_eq (m : List (String × String)) :
    ∀ n l, l.length ≤ n → lateSubstCoreRun m l = (lateSubstCore m l, m) := by
  intro n
  induction n generalizing m with
  | zero =>
    intro l hl
    have hnil : l = [] := List.eq_nil_of_length_eq_zero (Nat.le_zero.mp hl)
    subst hnil
    rw [lateSubstCoreRun.eq_1, lateSubstCore_nil]
  | succ n ih =>
    intro l hl
    cases l with
    | nil => rw [lateSubstCoreRun.eq_1, lateSubstCore_nil]
    | cons c cs =>
      have hcs : cs.length ≤ n := by
        simp only [List.length_cons] at hl
        omega
      rw [lateSubstCoreRun.eq_2]
      by_cases hc : c = '{'
      · rw [if_pos hc]
        split
        · rename_i g rest heq
          have hrest : rest.length ≤ n :=
            le_trans (tryTokenAfterBrace_suffix cs g rest heq).length_le hcs
          rw [applyReplRun_eq]
          dsimp only
          rw [ih m rest hrest]
          rw [hc, lateSubstCore_token m cs g rest heq]
        · rename_i heq
          rw [ih m cs hcs, hc, lateSubstCore_lit m '{' cs (fun _ => heq)]
      · rw [if_neg hc, ih m cs hcs, lateSubstCore_lit m c cs (fun h => absurd h hc)]

/-- C7: no side effects — with the mapping threaded as explicit state,
one invocation returns exactly the pure result together with the mapping
it was given, unchanged; consequently a second invocation on the returned
mapping gives the same output as the first. -/
theorem C7_no_side_effects (t : String) (m : List (String × String)) :
    lateSubstRun t m = (late_substitution t m, m) ∧
    (lateSubstRun t (lateSubstRun t m).2).1 = (lateSubstRun t m).1 := by
  have h : lateSubstRun t m = (late_substitution t m, m) := by
    unfold lateSubstRun late_substitution
    rw [coreRun_eq m t.data.length t.data le_rfl]
  exact ⟨h, by rw [h, show (late_substitution t m, m).2 = m from rfl, h]⟩

theorem take_of_suffix (cs rest : List Char) (h : rest <:+ cs) :
    cs.take (cs.length - rest.length) ++ rest = cs := by
  obtain ⟨raw, rfl⟩ := h
  have hl : (raw ++ rest).length - rest.length = raw.length := by
    simp only [List.length_append]
    omega
  rw [hl, List.take_left]

/-- The decomposition the scan induces on the template: a list of pieces,
each either a literal character left in place (`Sum.inl`) or a matched
token region (`Sum.inr (raw, g)`, the raw text of the region brace to
brace together with the capture of group 1). -/
def pieces : List Char → List ((List Char) ⊕ (List Char × List Char))
  | [] => []
  | c :: cs =>
    if c = '{' then
      match h2 : tryTokenAfterBrace cs with
      | some (g, rest) =>
        Sum.inr ('{' :: cs.take (cs.length - rest.length), g) :: pieces rest
      | none => Sum.inl [c] :: pieces cs
    else Sum.inl [c] :: pieces cs
termination_by l => l.length
decreasing_by
  · have := (tryTokenAfterBrace_suffix _ _ _ h2).length_le
    simp only [List.length_cons]
    omega
  · simp
  · simp

/-- The raw template text a piece covers. -/
def pieceRaw : (List Char) ⊕ (List Char × List Char) → List Char
  | Sum.inl l => l
  | Sum.inr pr => pr.1

/-- The output text a piece contributes: literal pieces pass through
unchanged; token regions are replaced wholesale by their substitution
value. -/
def pieceOut (m : List (String × String)) :
    (List Char) ⊕ (List Char × List Char) → List Char
  | Sum.inl l => l
  | Sum.inr pr => applyRepl m pr.2

theorem pieces_token (cs g rest : List Char)
    (h : tryTokenAfterBrace cs = some (g, rest)) :
    pieces ('{' :: cs)
      = Sum.inr ('{' :: cs.take (cs.length - rest.length), g) :: pieces rest := by
  rw [pieces.eq_2, if_pos rfl]
  split
  · rename_i g' rest' heq
    rw [h] at heq
    simp only [Option.some.injEq, Prod.mk.injEq] at heq
    obtain ⟨rfl, rfl⟩ := heq
    rfl
  · rename_i heq
    rw [h] at heq
    exact absurd heq (by simp)

theorem pieces_lit (c : Char) (cs : List Char)
    (h : c = '{' → tryTokenAfterBrace cs = none) :
    pieces (c :: cs) = Sum.inl [c] :: pieces cs := by
  rw [pieces.eq_2]
  by_cases hc : c = '{'
  · rw [if_pos hc]
    split
    · rename_i g' rest' heq
      rw [h hc] at heq
      exact absurd heq (by simp)
    · rfl
  · rw [if_neg hc]

theorem pieces_raw_flatten :
    ∀ n l, l.length ≤ n → ((pieces l).map pieceRaw).flatten = l := by
  intro n
  induction n with
  | zero =>
    intro l hl
    have hnil : l = [] := List.eq_nil_of_length_eq_zero (Nat.le_zero.mp hl)
    subst hnil
    rw [pieces.eq_1]
    rfl
  | succ n ih =>
    intro l hl
    cases l with
    | nil =>
      rw [pieces.eq_1]
      rfl
    | cons c cs =>
      have hcs : cs.length ≤ n := by
        simp only [List.length_cons] at hl
        omega
      by_cases hc : c = '{'
      · subst hc
        cases htk : tryTokenAfterBrace cs with
        | some p =>
          obtain ⟨g, rest⟩ := p
          have hsuf := tryTokenAfterBrace_suffix cs g rest htk
          have hrest : rest.length ≤ n := le_trans hsuf.length_le hcs
          rw [pieces_token cs g rest htk]
          simp only [List.map_cons, List.flatten_cons, pieceRaw]
          rw [ih rest hrest, List.cons_append, take_of_suffix cs rest hsuf]
        | none =>
          rw [pieces_lit _ _ (fun _ => htk)]
          simp only [List.map_cons, List.flatten_cons, pieceRaw]
          rw [ih cs hcs]
          rfl
      · rw [pieces_lit c cs (fun h => absurd h hc)]
        simp only [List.map_cons, List.flatten_cons, pieceRaw]
        rw [ih cs hcs]
        rfl

theorem core_eq_pieces_out (m : List (String × String)) :
    ∀ n l, l.length ≤ n → lateSubstCore m l = ((pieces l).map (pieceOut m)).flatten := by
  intro n
  induction n with
  | zero =>
    intro l hl
    have hnil : l = [] := List.eq_nil_of_length_eq_zero (Nat.le_zero.mp hl)
    subst hnil
    rw [pieces.eq_1, lateSubstCore_nil]
    rfl
  | succ n ih =>
    intro l hl
    cases l with
    | nil =>
      rw [pieces.eq_1, lateSubstCore_nil]
      rfl
    | cons c cs =>
      have hcs : cs.length ≤ n := by
        simp only [List.length_cons] at hl
        omega
      by_cases hc : c = '{'
      · subst hc
        cases htk : tryTokenAfterBrace cs with
        | some p =>
          obtain ⟨g, rest⟩ := p
          have hrest : rest.length ≤ n :=
            le_trans (tryTokenAfterBrace_suffix cs g rest htk).length_le hcs
          rw [pieces_token cs g rest htk, lateSubstCore_token m cs g rest htk]
          simp only [List.map_cons, List.flatten_cons, pieceOut]
          rw [ih rest hrest]
        | none =>
          rw [pieces_lit _ _ (fun _ => htk), lateSubstCore_lit m _ _ (fun _ => htk)]
          simp only [List.map_cons, List.flatten_cons, pieceOut]
          rw [ih cs hcs]
          rfl
      · rw [pieces_lit c cs (fun h => absurd h hc),
          lateSubstCore_lit m c cs (fun h => absurd h hc)]
        simp only [List.map_cons, List.flatten_cons, pieceOut]
        rw [ih cs hcs]
        rfl

/-- C6: the scan splits the template into pieces — literal characters and
matched token regions — whose raw texts concatenate back to the template
in order, and the output is the concatenation of the same pieces with
literal pieces passed through unchanged (`pieceOut` is the identity on
`Sum.inl`) and each token region replaced wholesale by its substitution
value. -/
theorem C6_literal_text_preserved (t : String) (m : List (String × String)) :
    ((pieces t.data).map pieceRaw).flatten = t.data ∧
    (late_substitution t m).data = ((pieces t.data).map (pieceOut m)).flatten := by
  constructor
  · exact pieces_raw_flatten t.data.length t.data le_rfl
  · exact core_eq_pieces_out m t.data.length t.data le_rfl
